import Mathlib

set_option autoImplicit false

/-!
Verification of the k6 file registry
(`js/modules/k6/experimental/fs/registry.go`).

The registry is a read-through, write-once cache from cleaned file paths to
file contents.  We embed the Go code shallowly:

* `filepathClean` models the Go function `path/filepath.Clean` (Unix separator), via the
  standard segment-stack formulation of the Go lazybuf algorithm;
* `CMap` models the `sync.Map` used for `openedFiles` as an association list
  with `load` (`sync.Map.Load`) and `store` (`sync.Map.Store`, replace or
  append) — under serial execution these are the only operations the code
  performs on it;
* `FS` models the `afero.Fs` collaborator: `openFile` is `fromFs.Open`
  (returning an abstract handle), `readAll` is `io.ReadAll` on that handle;
* `registryOpen` is the embedding of the method `registry.open` (the Lean
  keyword `open` forces the rename).  Besides the Go return value it returns
  the updated cache and the trace of operations performed against the source
  (`Event`), so that the statements of the spec about I/O and handle release can
  be expressed.  Note the Go code contains no `Close` call, hence no branch
  of `registryOpen` emits a `closeCall` event.
-/

abbrev Err := String

abbrev Bytes := List Nat

/-- Splits a character list on the slash separator; always returns at least
one (possibly empty) segment, mirroring how the Go cleaner walks elements
between separators. -/
def splitSlash : List Char → List (List Char)
  | [] => [[]]
  | c :: rest =>
    if c = '/' then [] :: splitSlash rest
    else
      match splitSlash rest with
      | [] => [[c]]
      | seg :: segs => (c :: seg) :: segs

/-- Processes the path elements left to right keeping the output (reversed)
on a stack: empty and dot elements are dropped, a dotdot element pops a
poppable element, is dropped at the root, and is kept when nothing can be
popped in a relative path — exactly the case analysis of the loop of Go `path.Clean`. -/
def cleanLoop (rooted : Bool) : List (List Char) → List (List Char) → List (List Char)
  | out, [] => out.reverse
  | out, seg :: rest =>
    if seg = [] ∨ seg = ['.'] then cleanLoop rooted out rest
    else if seg = ['.', '.'] then
      match out with
      | [] =>
        if rooted then cleanLoop rooted [] rest
        else cleanLoop rooted [['.', '.']] rest
      | top :: outTail =>
        if top = ['.', '.'] then cleanLoop rooted (seg :: out) rest
        else cleanLoop rooted outTail rest
    else cleanLoop rooted (seg :: out) rest

/-- Joins segments with a slash separator. -/
def joinSlash : List (List Char) → List Char
  | [] => []
  | [seg] => seg
  | seg :: rest => seg ++ '/' :: joinSlash rest

/-- Cleans a path given as a character list: Go `path.Clean` on the
element decomposition, turning the empty result into a dot (or a bare slash
for rooted paths). -/
def cleanChars (cs : List Char) : List Char :=
  let rooted : Bool :=
    match cs with
    | '/' :: _ => true
    | _ => false
  let body := joinSlash (cleanLoop rooted [] (splitSlash cs))
  if rooted then '/' :: body
  else if body = [] then ['.']
  else body

/-- Model of Go `filepath.Clean` with the Unix separator, as called on
line 50 of registry.go. -/
def filepathClean (p : String) : String := String.mk (cleanChars p.data)

/-- Values stored in the `sync.Map` are `interface\x7b\x7d`: either a byte
slice (the only thing the registry ever stores) or, representably, anything
else — `other` stands for a value that is not a byte slice, which the type
assertion in the code rejects with a panic. -/
inductive CacheVal where
  | bytes (data : Bytes)
  | other (tag : String)
  deriving DecidableEq, Repr

/-- The `openedFiles` map: keys are cleaned path strings, values the cached
`interface\x7b\x7d` values. -/
abbrev CMap := List (String × CacheVal)

/-- Model of `sync.Map.Load`. -/
def CMap.load : CMap → String → Option CacheVal
  | [], _ => none
  | e :: rest, k => if e.1 = k then some e.2 else CMap.load rest k

/-- Model of `sync.Map.Store`: replaces the value of an existing key, or
appends a new binding. -/
def CMap.store : CMap → String → CacheVal → CMap
  | [], k, v => [(k, v)]
  | e :: rest, k, v => if e.1 = k then (k, v) :: rest else e :: CMap.store rest k v

/-- Number of entries of the map holding the given key. -/
def CMap.countKey (m : CMap) (k : String) : Nat :=
  m.countP fun e => decide (e.1 = k)

/-- The `afero.Fs` collaborator, reduced to the two capabilities the
registry uses: opening a path (yielding an abstract handle) and draining a
handle.  Both may fail. -/
structure FS where
  openFile : String → Except Err Nat
  readAll : Nat → Except Err Bytes

/-- Operations performed against the source during one call, recorded so
that statements about I/O and handle release can be made.  The Go code
never calls `Close`, so `registryOpen` never emits `closeCall`. -/
inductive Event where
  | openCall (path : String)
  | readCall (handle : Nat)
  | closeCall (handle : Nat)
  deriving DecidableEq, Repr

/-- A Go `([]byte, error)` return (with `nil` content as `none`), or a
panic. -/
inductive GoOut where
  | ret (data : Option Bytes) (err : Option Err)
  | panicked (msg : String)
  deriving DecidableEq, Repr

/-- Embedding of `registry.open` (registry.go lines 49–74): clean the name,
return a cached byte slice, panic on a cached non-byte-slice, otherwise open
and drain the file from the source, caching the content only when both
steps succeed. -/
def registryOpen (fr : CMap) (filename : String) (fromFs : FS) :
    GoOut × CMap × List Event :=
  let filename := filepathClean filename
  match fr.load filename with
  | some f =>
    match f with
    | CacheVal.bytes data => (GoOut.ret (some data) none, fr, [])
    | CacheVal.other _ =>
      (GoOut.panicked ("registry file " ++ filename ++ " is not stored as a byte slice"),
        fr, [])
  | none =>
    match fromFs.openFile filename with
    | Except.error err => (GoOut.ret none (some err), fr, [Event.openCall filename])
    | Except.ok f =>
      match fromFs.readAll f with
      | Except.error err =>
        (GoOut.ret none (some err), fr, [Event.openCall filename, Event.readCall f])
      | Except.ok data =>
        (GoOut.ret (some data) none, fr.store filename (CacheVal.bytes data),
          [Event.openCall filename, Event.readCall f])

/-- A source on which every open succeeds with the given handle and every
read succeeds with the given content. -/
def fsConst (h : Nat) (d : Bytes) : FS :=
  { openFile := fun _ => Except.ok h, readAll := fun _ => Except.ok d }

/-- A source on which every open fails with the given error. -/
def fsFailOpen (e : Err) : FS :=
  { openFile := fun _ => Except.error e, readAll := fun _ => Except.ok [] }

/-- A source on which opens succeed but every read fails with the given
error. -/
def fsFailRead (h : Nat) (e : Err) : FS :=
  { openFile := fun _ => Except.ok h, readAll := fun _ => Except.error e }

/-- Runs a sequence of serial calls against the registry, threading the
cache through; each call names a path and a source. -/
def runCalls (m : CMap) : List (String × FS) → CMap
  | [] => m
  | c :: rest => runCalls (registryOpen m c.1 c.2).2.1 rest

/-- Runs n sequential calls for one path against one source, collecting
the result of each call and trace. -/
def openN (m : CMap) (p : String) (fs : FS) : Nat → List (GoOut × List Event) × CMap
  | 0 => ([], m)
  | n + 1 =>
    let r := registryOpen m p fs
    let rest := openN r.2.1 p fs n
    ((r.1, r.2.2) :: rest.1, rest.2)

/-- All results of n sequential calls. -/
def seqResults (m : CMap) (p : String) (fs : FS) (n : Nat) : List GoOut :=
  (openN m p fs n).1.map Prod.fst

/-- Concatenated trace of n sequential calls. -/
def seqEvents (m : CMap) (p : String) (fs : FS) (n : Nat) : List Event :=
  ((openN m p fs n).1.map Prod.snd).flatten

/-- How many times a trace queries the source for a given (cleaned) path:
each query the code makes starts with exactly one `Open` call on the
source. -/
def sourceQueries (evs : List Event) (key : String) : Nat :=
  evs.countP fun ev => decide (ev = Event.openCall key)

/-- Registry caches reachable from the empty registry by serial calls; the
only writer of the registry is `registryOpen` itself. -/
inductive Reachable : CMap → Prop
  | empty : Reachable []
  | step (m : CMap) (p : String) (fs : FS) :
      Reachable m → Reachable (registryOpen m p fs).2.1

/-- Program counter of one thread executing `registry.open` for a fixed
path and source.  The only shared state is the cache; `Load` and `Store`
are its atomic operations (the `sync.Map` contract), and the open/read of
the source between them touches no shared state, so the single interleaving
point after the load captures all behaviours. -/
inductive TPC where
  | atLoad
  | atStore (data : Bytes)
  | done (res : GoOut)
  deriving DecidableEq, Repr

/-- Whether a thread has returned. -/
def TPC.isDone : TPC → Bool
  | TPC.done _ => true
  | _ => false

/-- One atomic step of a thread running `registry.open p fromFs`: from
`atLoad` it performs the `Load` and either returns (hit, panic, open error,
read error) or moves to `atStore` carrying the bytes it read; from
`atStore` it performs the `Store` and returns. -/
def threadStep (fromFs : FS) (p : String) (cache : CMap) : TPC → CMap × TPC
  | TPC.atLoad =>
    let filename := filepathClean p
    match cache.load filename with
    | some (CacheVal.bytes data) => (cache, TPC.done (GoOut.ret (some data) none))
    | some (CacheVal.other _) =>
      (cache,
        TPC.done (GoOut.panicked ("registry file " ++ filename ++ " is not stored as a byte slice")))
    | none =>
      match fromFs.openFile filename with
      | Except.error err => (cache, TPC.done (GoOut.ret none (some err)))
      | Except.ok f =>
        match fromFs.readAll f with
        | Except.error err => (cache, TPC.done (GoOut.ret none (some err)))
        | Except.ok data => (cache, TPC.atStore data)
  | TPC.atStore data =>
    (cache.store (filepathClean p) (CacheVal.bytes data),
      TPC.done (GoOut.ret (some data) none))
  | TPC.done r => (cache, TPC.done r)

/-- Runs a schedule (a list of thread indices) over a pool of threads all
calling `registry.open p fromFs` on the shared cache; out-of-range indices
are skipped. -/
def runSched (fromFs : FS) (p : String) : CMap × List TPC → List Nat → CMap × List TPC
  | st, [] => st
  | st, i :: rest =>
    match st.2.get? i with
    | none => runSched fromFs p st rest
    | some t =>
      let s := threadStep fromFs p st.1 t
      runSched fromFs p (s.1, st.2.set i s.2) rest

theorem CMap.load_store_self (m : CMap) (k : String) (v : CacheVal) :
    (m.store k v).load k = some v := by
  induction m with
  | nil => simp [CMap.store, CMap.load]
  | cons e rest ih =>
    by_cases h : e.1 = k
    · simp [CMap.store, h, CMap.load]
    · simp [CMap.store, h, CMap.load, ih]

theorem CMap.load_store_ne (m : CMap) (k : String) (v : CacheVal) (k' : String)
    (h : k' ≠ k) : (m.store k v).load k' = m.load k' := by
  have hkk : ¬ k = k' := fun he => h he.symm
  induction m with
  | nil => simp [CMap.store, CMap.load, hkk]
  | cons e rest ih =>
    by_cases he : e.1 = k
    · have hek : ¬ e.1 = k' := fun hx => h (he.symm.trans hx).symm
      simp [CMap.store, he, CMap.load, hkk, hek]
    · simp [CMap.store, he, CMap.load, ih]

theorem CMap.countKey_store (m : CMap) (k : String) (v : CacheVal) :
    (m.store k v).countKey k = max 1 (m.countKey k) := by
  induction m with
  | nil => simp [CMap.store, CMap.countKey]
  | cons e rest ih =>
    by_cases h : e.1 = k
    · simp [CMap.store, h, CMap.countKey, List.countP_cons]
    · simp [CMap.store, h, CMap.countKey, List.countP_cons] at ih ⊢
      omega

theorem CMap.load_eq_none_of_countKey_zero (m : CMap) (k : String)
    (h : m.countKey k = 0) : m.load k = none := by
  induction m with
  | nil => rfl
  | cons e rest ih =>
    by_cases he : e.1 = k
    · simp [CMap.countKey, List.countP_cons, he] at h
    · simp only [CMap.countKey, List.countP_cons, he] at h
      simp only [CMap.load, if_neg he]
      exact ih (by simpa [CMap.countKey] using h)

theorem open_hit_bytes (fr : CMap) (p : String) (fs : FS) (d : Bytes)
    (h : fr.load (filepathClean p) = some (CacheVal.bytes d)) :
    registryOpen fr p fs = (GoOut.ret (some d) none, fr, []) := by
  simp [registryOpen, h]

theorem open_hit_other (fr : CMap) (p : String) (fs : FS) (t : String)
    (h : fr.load (filepathClean p) = some (CacheVal.other t)) :
    registryOpen fr p fs =
      (GoOut.panicked ("registry file " ++ filepathClean p ++ " is not stored as a byte slice"),
        fr, []) := by
  simp [registryOpen, h]

theorem open_openErr (fr : CMap) (p : String) (fs : FS) (e : Err)
    (hl : fr.load (filepathClean p) = none)
    (ho : fs.openFile (filepathClean p) = Except.error e) :
    registryOpen fr p fs =
      (GoOut.ret none (some e), fr, [Event.openCall (filepathClean p)]) := by
  simp [registryOpen, hl, ho]

theorem open_readErr (fr : CMap) (p : String) (fs : FS) (h : Nat) (e : Err)
    (hl : fr.load (filepathClean p) = none)
    (ho : fs.openFile (filepathClean p) = Except.ok h)
    (hr : fs.readAll h = Except.error e) :
    registryOpen fr p fs =
      (GoOut.ret none (some e), fr,
        [Event.openCall (filepathClean p), Event.readCall h]) := by
  simp [registryOpen, hl, ho, hr]

theorem open_success (fr : CMap) (p : String) (fs : FS) (h : Nat) (d : Bytes)
    (hl : fr.load (filepathClean p) = none)
    (ho : fs.openFile (filepathClean p) = Except.ok h)
    (hr : fs.readAll h = Except.ok d) :
    registryOpen fr p fs =
      (GoOut.ret (some d) none, fr.store (filepathClean p) (CacheVal.bytes d),
        [Event.openCall (filepathClean p), Event.readCall h]) := by
  simp [registryOpen, hl, ho, hr]

theorem open_cache_cases (fr : CMap) (p : String) (fs : FS) :
    (registryOpen fr p fs).2.1 = fr ∨
    ∃ d, fr.load (filepathClean p) = none ∧
      (registryOpen fr p fs).2.1 = fr.store (filepathClean p) (CacheVal.bytes d) := by
  cases hl : fr.load (filepathClean p) with
  | some v =>
    cases v with
    | bytes d => rw [open_hit_bytes fr p fs d hl]; exact Or.inl rfl
    | other t => rw [open_hit_other fr p fs t hl]; exact Or.inl rfl
  | none =>
    cases ho : fs.openFile (filepathClean p) with
    | error e => rw [open_openErr fr p fs e hl ho]; exact Or.inl rfl
    | ok h =>
      cases hr : fs.readAll h with
      | error e => rw [open_readErr fr p fs h e hl ho hr]; exact Or.inl rfl
      | ok d => rw [open_success fr p fs h d hl ho hr]; exact Or.inr ⟨d, rfl, rfl⟩

theorem load_mono (fr : CMap) (p : String) (fs : FS) (k : String) (v : CacheVal)
    (h : fr.load k = some v) : (registryOpen fr p fs).2.1.load k = some v := by
  rcases open_cache_cases fr p fs with heq | ⟨d, hnone, heq⟩
  · rw [heq]; exact h
  · rw [heq]
    by_cases hk : k = filepathClean p
    · subst hk; rw [h] at hnone; cases hnone
    · rw [CMap.load_store_ne _ _ _ _ hk]; exact h

theorem load_after_success (fr : CMap) (p : String) (fs : FS) (d : Bytes)
    (h : (registryOpen fr p fs).1 = GoOut.ret (some d) none) :
    (registryOpen fr p fs).2.1.load (filepathClean p) = some (CacheVal.bytes d) := by
  cases hl : fr.load (filepathClean p) with
  | some v =>
    cases v with
    | bytes d0 =>
      rw [open_hit_bytes fr p fs d0 hl] at h ⊢
      simp at h ⊢
      rw [hl, h]
    | other t =>
      rw [open_hit_other fr p fs t hl] at h
      simp at h
  | none =>
    cases ho : fs.openFile (filepathClean p) with
    | error e =>
      rw [open_openErr fr p fs e hl ho] at h
      simp at h
    | ok hd =>
      cases hr : fs.readAll hd with
      | error e =>
        rw [open_readErr fr p fs hd e hl ho hr] at h
        simp at h
      | ok data =>
        rw [open_success fr p fs hd data hl ho hr] at h ⊢
        simp at h ⊢
        rw [h, CMap.load_store_self]

/-- Invariant of an N-thread race on one uncached path read as bytes d:
either nobody has stored yet (no entry for the key, every thread is before
its store) or the entry exists exactly once with exactly the read bytes,
and every finished thread has returned those bytes. -/
def raceInv (p : String) (d : Bytes) (st : CMap × List TPC) : Prop :=
  (st.1.countKey (filepathClean p) = 0 ∧ st.1.load (filepathClean p) = none ∧
    ∀ t ∈ st.2, t = TPC.atLoad ∨ t = TPC.atStore d) ∨
  (st.1.countKey (filepathClean p) = 1 ∧
    st.1.load (filepathClean p) = some (CacheVal.bytes d) ∧
    ∀ t ∈ st.2, t = TPC.atLoad ∨ t = TPC.atStore d ∨
      t = TPC.done (GoOut.ret (some d) none))

example : filepathClean "" = "." := by decide

example : filepathClean "a/./b" = "a/b" := by decide

example : filepathClean "a//b" = "a/b" := by decide

example : filepathClean "/a/../.." = "/" := by decide

example : filepathClean "a/b/../../../c" = "../c" := by decide

/-- C1: read-through postcondition of registry.open.  A cache hit on the
cleaned path returns the cached bytes with no error and performs no
operation on the source; a cache miss on which the source open and the full
read both succeed stores the read bytes under the cleaned path and returns
them with no error. -/
theorem c1_read_through_postcondition (fr : CMap) (p : String) (fs : FS) :
    (∀ d, fr.load (filepathClean p) = some (CacheVal.bytes d) →
      registryOpen fr p fs = (GoOut.ret (some d) none, fr, [])) ∧
    (∀ h d, fr.load (filepathClean p) = none →
      fs.openFile (filepathClean p) = Except.ok h →
      fs.readAll h = Except.ok d →
      registryOpen fr p fs =
        (GoOut.ret (some d) none, fr.store (filepathClean p) (CacheVal.bytes d),
          [Event.openCall (filepathClean p), Event.readCall h])) :=
  ⟨fun d hd => open_hit_bytes fr p fs d hd,
   fun h d hl ho hr => open_success fr p fs h d hl ho hr⟩

theorem c1_read_through_postcondition_witness :
    registryOpen [("a", CacheVal.bytes [1, 2])] "a" (fsConst 7 [9]) =
      (GoOut.ret (some [1, 2]) none, [("a", CacheVal.bytes [1, 2])], []) ∧
    registryOpen [] "b" (fsConst 7 [9]) =
      (GoOut.ret (some [9]) none,
        CMap.store [] (filepathClean "b") (CacheVal.bytes [9]),
        [Event.openCall (filepathClean "b"), Event.readCall 7]) :=
  ⟨(c1_read_through_postcondition [("a", CacheVal.bytes [1, 2])] "a" (fsConst 7 [9])).1
      [1, 2] (by decide),
   (c1_read_through_postcondition [] "b" (fsConst 7 [9])).2 7 [9] (by decide) rfl rfl⟩

/-- C3: when the source open or the read fails, registry.open returns that
very error with nil content, the cache is exactly what it was before the
call, and a subsequent call for the same path against a working source
succeeds. -/
theorem c3_error_leaves_no_trace (fr : CMap) (p : String) (fs : FS) (e : Err)
    (hl : fr.load (filepathClean p) = none)
    (hfail : fs.openFile (filepathClean p) = Except.error e ∨
      ∃ h, fs.openFile (filepathClean p) = Except.ok h ∧ fs.readAll h = Except.error e) :
    (registryOpen fr p fs).1 = GoOut.ret none (some e) ∧
    (registryOpen fr p fs).2.1 = fr ∧
    ∀ (fs2 : FS) (h : Nat) (d : Bytes),
      fs2.openFile (filepathClean p) = Except.ok h →
      fs2.readAll h = Except.ok d →
      (registryOpen (registryOpen fr p fs).2.1 p fs2).1 = GoOut.ret (some d) none := by
  rcases hfail with ho | ⟨h, ho, hr⟩
  · rw [open_openErr fr p fs e hl ho]
    exact ⟨rfl, rfl, fun fs2 h2 d ho2 hr2 => by rw [open_success fr p fs2 h2 d hl ho2 hr2]⟩
  · rw [open_readErr fr p fs h e hl ho hr]
    exact ⟨rfl, rfl, fun fs2 h2 d ho2 hr2 => by rw [open_success fr p fs2 h2 d hl ho2 hr2]⟩

theorem c3_error_leaves_no_trace_witness :
    (registryOpen [] "missing.txt" (fsFailOpen "no such file")).1 =
      GoOut.ret none (some "no such file") ∧
    (registryOpen [] "missing.txt" (fsFailOpen "no such file")).2.1 = [] ∧
    (registryOpen (registryOpen [] "missing.txt" (fsFailOpen "no such file")).2.1
        "missing.txt" (fsConst 7 [9])).1 = GoOut.ret (some [9]) none :=
  ⟨(c3_error_leaves_no_trace [] "missing.txt" (fsFailOpen "no such file") "no such file"
      rfl (Or.inl rfl)).1,
   (c3_error_leaves_no_trace [] "missing.txt" (fsFailOpen "no such file") "no such file"
      rfl (Or.inl rfl)).2.1,
   (c3_error_leaves_no_trace [] "missing.txt" (fsFailOpen "no such file") "no such file"
      rfl (Or.inl rfl)).2.2 (fsConst 7 [9]) 7 [9] rfl rfl⟩

/-- C4: syntactically equivalent paths share the cleaned string as both
cache key and source path: after a successful call on one spelling, a call
on any spelling with the same cleaned form is a cache hit returning the
same bytes, with no operation on the source. -/
theorem c4_normalized_paths_share_entry (p1 p2 : String) (fr : CMap) (fs : FS) (d : Bytes)
    (hcl : filepathClean p1 = filepathClean p2)
    (hs : (registryOpen fr p1 fs).1 = GoOut.ret (some d) none) :
    registryOpen (registryOpen fr p1 fs).2.1 p2 fs =
      (GoOut.ret (some d) none, (registryOpen fr p1 fs).2.1, []) := by
  have hload := load_after_success fr p1 fs d hs
  rw [hcl] at hload
  exact open_hit_bytes _ p2 fs d hload

theorem c4_normalized_paths_share_entry_witness :
    registryOpen (registryOpen [] "a/./b" (fsConst 7 [9])).2.1 "a/b" (fsConst 7 [9]) =
      (GoOut.ret (some [9]) none, (registryOpen [] "a/./b" (fsConst 7 [9])).2.1, []) :=
  c4_normalized_paths_share_entry "a/./b" "a/b" [] (fsConst 7 [9]) [9] (by decide) (by decide)

/-- C5: write-once invariant.  Once a key is bound in the cache, any
sequence of serial calls (any paths, any sources) leaves that key bound to
the same value: no call mutates or removes an existing entry. -/
theorem c5_write_once (calls : List (String × FS)) (m : CMap) (k : String) (v : CacheVal)
    (h : m.load k = some v) : (runCalls m calls).load k = some v := by
  induction calls generalizing m with
  | nil => exact h
  | cons c rest ih => exact ih _ (load_mono m c.1 c.2 k v h)

theorem c5_write_once_witness :
    (runCalls [("k", CacheVal.bytes [5])]
        [("k", fsConst 1 [9]), ("x", fsConst 2 [7])]).load "k" =
      some (CacheVal.bytes [5]) :=
  c5_write_once [("k", fsConst 1 [9]), ("x", fsConst 2 [7])] [("k", CacheVal.bytes [5])]
    "k" (CacheVal.bytes [5]) (by decide)

/-- C7: frame property of one call.  Every key other than the cleaned input
path keeps exactly the binding it had, and the whole cache either is
unchanged or has gained exactly the one binding for the cleaned input path
(which was previously absent). -/
theorem c7_single_insertion_frame (fr : CMap) (p : String) (fs : FS) :
    (∀ k, k ≠ filepathClean p → (registryOpen fr p fs).2.1.load k = fr.load k) ∧
    ((registryOpen fr p fs).2.1 = fr ∨
      ∃ d, fr.load (filepathClean p) = none ∧
        (registryOpen fr p fs).2.1 = fr.store (filepathClean p) (CacheVal.bytes d)) := by
  refine ⟨?_, open_cache_cases fr p fs⟩
  intro k hk
  rcases open_cache_cases fr p fs with heq | ⟨d, hnone, heq⟩
  · rw [heq]
  · rw [heq, CMap.load_store_ne _ _ _ _ hk]

theorem c7_single_insertion_frame_witness :
    (registryOpen [] "a" (fsConst 7 [9])).2.1.load "z" = CMap.load [] "z" ∧
    ((registryOpen [] "a" (fsConst 7 [9])).2.1 = [] ∨
      ∃ d, CMap.load [] (filepathClean "a") = none ∧
        (registryOpen [] "a" (fsConst 7 [9])).2.1 =
          CMap.store [] (filepathClean "a") (CacheVal.bytes d)) :=
  ⟨(c7_single_insertion_frame [] "a" (fsConst 7 [9])).1 "z" (by decide),
   (c7_single_insertion_frame [] "a" (fsConst 7 [9])).2⟩

/-- C10: the empty path is treated exactly like the dot path: cleaning maps
the empty string to the dot, which is then used both as cache key and as
the path opened on the source, so the two calls are indistinguishable in
result, cache effect, and trace. -/
theorem c10_empty_path_is_dot (fr : CMap) (fs : FS) :
    registryOpen fr "" fs = registryOpen fr "." fs := by
  have h : filepathClean "" = filepathClean "." := by decide
  unfold registryOpen
  rw [h]

theorem openN_hit (m : CMap) (p : String) (fs : FS) (d : Bytes) (n : Nat)
    (h : m.load (filepathClean p) = some (CacheVal.bytes d)) :
    openN m p fs n = (List.replicate n (GoOut.ret (some d) none, ([] : List Event)), m) := by
  induction n with
  | zero => rfl
  | succ k ih =>
    simp only [openN, open_hit_bytes m p fs d h, ih, List.replicate_succ]

theorem flatten_replicate_nil (n : Nat) :
    (List.replicate n ([] : List Event)).flatten = [] := by
  induction n with
  | zero => rfl
  | succ k ih => simp [List.replicate_succ, ih]

theorem open_queries_le_one (fr : CMap) (p : String) (fs : FS) (key : String) :
    sourceQueries (registryOpen fr p fs).2.2 key ≤ 1 := by
  cases hl : fr.load (filepathClean p) with
  | some v =>
    cases v with
    | bytes d => simp [open_hit_bytes fr p fs d hl, sourceQueries]
    | other t => simp [open_hit_other fr p fs t hl, sourceQueries]
  | none =>
    cases ho : fs.openFile (filepathClean p) with
    | error e =>
      rw [open_openErr fr p fs e hl ho]
      simp only [sourceQueries, List.countP_cons, List.countP_nil]
      split <;> simp
    | ok h =>
      cases hr : fs.readAll h with
      | error e =>
        rw [open_readErr fr p fs h e hl ho hr]
        simp only [sourceQueries, List.countP_cons, List.countP_nil]
        split <;> split <;> simp_all
      | ok d =>
        rw [open_success fr p fs h d hl ho hr]
        simp only [sourceQueries, List.countP_cons, List.countP_nil]
        split <;> split <;> simp_all

/-- C2 as stated fails on the code: with a source on which every open
fails, two sequential calls for the same path query the source twice — a
failed attempt is not cached, so the second call retries, contradicting
the claimed at-most-one query over all calls. -/
theorem c2_counterexample :
    ¬ sourceQueries (seqEvents [] "a" (fsFailOpen "no such file") 2)
        (filepathClean "a") ≤ 1 := by
  decide

/-- C2 (amended): for sources on which the first call succeeds, every one
of the n+1 sequential calls returns bytes identical to the first result,
and the source is queried for the path at most once across all the calls. -/
theorem c2_sequential_idempotent (m : CMap) (p : String) (fs : FS) (d : Bytes) (n : Nat)
    (h : (registryOpen m p fs).1 = GoOut.ret (some d) none) :
    (∀ r ∈ seqResults m p fs (n + 1), r = GoOut.ret (some d) none) ∧
    sourceQueries (seqEvents m p fs (n + 1)) (filepathClean p) ≤ 1 := by
  have hload := load_after_success m p fs d h
  have hrun := openN_hit (registryOpen m p fs).2.1 p fs d n hload
  constructor
  · intro r hr
    simp only [seqResults, openN, hrun, List.map_cons, List.map_replicate,
      List.mem_cons, List.mem_replicate] at hr
    rcases hr with rfl | hr
    · exact h
    · exact hr.2
  · simp only [seqEvents, openN, hrun, List.map_cons, List.map_replicate,
      List.flatten_cons, flatten_replicate_nil, List.append_nil]
    exact open_queries_le_one m p fs (filepathClean p)

theorem c2_sequential_idempotent_witness :
    GoOut.ret (some [9]) none = GoOut.ret (some [9]) none ∧
    sourceQueries (seqEvents [] "a" (fsConst 7 [9]) 3) (filepathClean "a") ≤ 1 :=
  ⟨(c2_sequential_idempotent [] "a" (fsConst 7 [9]) [9] 2 (by decide)).1
      (GoOut.ret (some [9]) none) (by decide),
   (c2_sequential_idempotent [] "a" (fsConst 7 [9]) [9] 2 (by decide)).2⟩

/-- C6 is violated by the code: registry.open contains no Close call, so a
handle obtained from the source is never released before open returns.  At
the failing input (empty registry, a source whose open yields handle 7 and
whose read succeeds) the call returns with trace open-then-read and no
close; in general no call ever emits a close of any handle. -/
theorem c6_handle_never_released :
    ((registryOpen [] "a.txt" (fsConst 7 [104, 105])).2.2 =
      [Event.openCall "a.txt", Event.readCall 7]) ∧
    ∀ (fr : CMap) (p : String) (fs : FS) (hdl : Nat),
      Event.closeCall hdl ∉ (registryOpen fr p fs).2.2 := by
  refine ⟨by decide, ?_⟩
  intro fr p fs hdl
  cases hl : fr.load (filepathClean p) with
  | some v =>
    cases v with
    | bytes d => simp [open_hit_bytes fr p fs d hl]
    | other t => simp [open_hit_other fr p fs t hl]
  | none =>
    cases ho : fs.openFile (filepathClean p) with
    | error e => simp [open_openErr fr p fs e hl ho]
    | ok h =>
      cases hr : fs.readAll h with
      | error e => simp [open_readErr fr p fs h e hl ho hr]
      | ok d => simp [open_success fr p fs h d hl ho hr]

theorem reachable_values_are_bytes (m : CMap) (hm : Reachable m) :
    ∀ k v, m.load k = some v → ∃ d, v = CacheVal.bytes d := by
  induction hm with
  | empty =>
    intro k v h
    cases h
  | step m1 p fs hm1 ih =>
    intro k v h
    rcases open_cache_cases m1 p fs with heq | ⟨d, hnone, heq⟩
    · rw [heq] at h
      exact ih k v h
    · rw [heq] at h
      by_cases hk : k = filepathClean p
      · subst hk
        rw [CMap.load_store_self] at h
        exact ⟨d, by injection h with h2; exact h2.symm⟩
      · rw [CMap.load_store_ne _ _ _ _ hk] at h
        exact ih k v h

/-- C8: if the cached value under the cleaned path is not a byte slice,
registry.open panics instead of returning; and on any registry reachable
from the empty one through open calls (the write-once contract: only open
inserts, and it inserts only byte slices) no call can panic. -/
theorem c8_panic_defensive_and_unreachable (fr : CMap) (p : String) (fs : FS) :
    (∀ t, fr.load (filepathClean p) = some (CacheVal.other t) →
      (registryOpen fr p fs).1 =
        GoOut.panicked ("registry file " ++ filepathClean p ++
          " is not stored as a byte slice")) ∧
    (Reachable fr → ∀ msg, (registryOpen fr p fs).1 ≠ GoOut.panicked msg) := by
  constructor
  · intro t ht
    rw [open_hit_other fr p fs t ht]
  · intro hre msg
    cases hl : fr.load (filepathClean p) with
    | some v =>
      rcases reachable_values_are_bytes fr hre _ _ hl with ⟨d, rfl⟩
      rw [open_hit_bytes fr p fs d hl]
      simp
    | none =>
      cases ho : fs.openFile (filepathClean p) with
      | error e =>
        rw [open_openErr fr p fs e hl ho]
        simp
      | ok h =>
        cases hr : fs.readAll h with
        | error e =>
          rw [open_readErr fr p fs h e hl ho hr]
          simp
        | ok d =>
          rw [open_success fr p fs h d hl ho hr]
          simp

theorem c8_panic_defensive_and_unreachable_witness :
    (registryOpen [("x", CacheVal.other "int64")] "x" (fsConst 7 [9])).1 =
      GoOut.panicked ("registry file " ++ filepathClean "x" ++
        " is not stored as a byte slice") ∧
    (registryOpen [] "x" (fsConst 7 [9])).1 ≠ GoOut.panicked "boom" :=
  ⟨(c8_panic_defensive_and_unreachable [("x", CacheVal.other "int64")] "x"
      (fsConst 7 [9])).1 "int64" (by decide),
   (c8_panic_defensive_and_unreachable [] "x" (fsConst 7 [9])).2 Reachable.empty "boom"⟩

theorem runSched_threads_length (fs : FS) (p : String) (sched : List Nat) :
    ∀ st : CMap × List TPC, (runSched fs p st sched).2.length = st.2.length := by
  induction sched with
  | nil =>
    intro st
    rfl
  | cons i rest ih =>
    intro st
    rw [runSched]
    split
    · exact ih st
    · rename_i t hg
      rw [ih]
      exact List.length_set st.2 i _

theorem raceInv_runSched (fs : FS) (p : String) (h : Nat) (d : Bytes)
    (ho : fs.openFile (filepathClean p) = Except.ok h)
    (hr : fs.readAll h = Except.ok d) (sched : List Nat) :
    ∀ st : CMap × List TPC, raceInv p d st → raceInv p d (runSched fs p st sched) := by
  induction sched with
  | nil =>
    intro st hst
    exact hst
  | cons i rest ih =>
    intro st hst
    rw [runSched]
    split
    · exact ih st hst
    · rename_i t hg
      apply ih
      have ht : t ∈ st.2 := List.get?_mem hg
      rcases hst with ⟨hc, hl, hall⟩ | ⟨hc, hl, hall⟩
      · rcases hall t ht with rfl | rfl
        · simp only [threadStep, hl, ho, hr]
          left
          refine ⟨hc, hl, ?_⟩
          intro t2 ht2
          rcases List.mem_or_eq_of_mem_set ht2 with ht2 | rfl
          · exact hall t2 ht2
          · exact Or.inr rfl
        · simp only [threadStep]
          right
          refine ⟨by simp [CMap.countKey_store, hc], CMap.load_store_self _ _ _, ?_⟩
          intro t2 ht2
          rcases List.mem_or_eq_of_mem_set ht2 with ht2 | rfl
          · rcases hall t2 ht2 with rfl | rfl
            · exact Or.inl rfl
            · exact Or.inr (Or.inl rfl)
          · exact Or.inr (Or.inr rfl)
      · rcases hall t ht with rfl | rfl | rfl
        · simp only [threadStep, hl]
          right
          refine ⟨hc, hl, ?_⟩
          intro t2 ht2
          rcases List.mem_or_eq_of_mem_set ht2 with ht2 | rfl
          · exact hall t2 ht2
          · exact Or.inr (Or.inr rfl)
        · simp only [threadStep]
          right
          refine ⟨by simp [CMap.countKey_store, hc], CMap.load_store_self _ _ _, ?_⟩
          intro t2 ht2
          rcases List.mem_or_eq_of_mem_set ht2 with ht2 | rfl
          · exact hall t2 ht2
          · exact Or.inr (Or.inr rfl)
        · simp only [threadStep]
          right
          refine ⟨hc, hl, ?_⟩
          intro t2 ht2
          rcases List.mem_or_eq_of_mem_set ht2 with ht2 | rfl
          · exact hall t2 ht2
          · exact Or.inr (Or.inr rfl)

/-- C9: when N threads race on one previously uncached path over a source
that deterministically yields bytes d, every schedule that runs all threads
to completion leaves every thread returning exactly those bytes, and the
registry holding exactly one entry for the cleaned path, bound to exactly
those bytes — no torn value is representable, as the interleaving acts
through the atomic load and store of the map. -/
theorem c9_concurrent_race_safe (fs : FS) (p : String) (h : Nat) (d : Bytes)
    (cache0 : CMap) (N : Nat) (sched : List Nat)
    (ho : fs.openFile (filepathClean p) = Except.ok h)
    (hr : fs.readAll h = Except.ok d)
    (hc0 : cache0.countKey (filepathClean p) = 0)
    (hN : 0 < N)
    (hdone : ∀ t ∈ (runSched fs p (cache0, List.replicate N TPC.atLoad) sched).2,
      t.isDone = true) :
    (∀ t ∈ (runSched fs p (cache0, List.replicate N TPC.atLoad) sched).2,
      t = TPC.done (GoOut.ret (some d) none)) ∧
    (runSched fs p (cache0, List.replicate N TPC.atLoad) sched).1.countKey
      (filepathClean p) = 1 ∧
    (runSched fs p (cache0, List.replicate N TPC.atLoad) sched).1.load
      (filepathClean p) = some (CacheVal.bytes d) := by
  have hinv0 : raceInv p d (cache0, List.replicate N TPC.atLoad) := by
    left
    refine ⟨hc0, CMap.load_eq_none_of_countKey_zero _ _ hc0, ?_⟩
    intro t ht
    rw [List.eq_of_mem_replicate ht]
    exact Or.inl rfl
  have hinv := raceInv_runSched fs p h d ho hr sched _ hinv0
  have hlen : (runSched fs p (cache0, List.replicate N TPC.atLoad) sched).2.length = N := by
    rw [runSched_threads_length]
    exact List.length_replicate N TPC.atLoad
  rcases hinv with ⟨hc, hl, hall⟩ | ⟨hc, hl, hall⟩
  · exfalso
    have hne : (runSched fs p (cache0, List.replicate N TPC.atLoad) sched).2 ≠ [] := by
      intro hnil
      rw [hnil] at hlen
      simp at hlen
      omega
    rcases List.exists_mem_of_ne_nil _ hne with ⟨t, ht⟩
    have hd := hdone t ht
    rcases hall t ht with rfl | rfl <;> simp [TPC.isDone] at hd
  · refine ⟨?_, hc, hl⟩
    intro t ht
    rcases hall t ht with rfl | rfl | rfl
    · exact absurd (hdone _ ht) (by simp [TPC.isDone])
    · exact absurd (hdone _ ht) (by simp [TPC.isDone])
    · rfl

theorem c9_concurrent_race_safe_witness :
    TPC.done (GoOut.ret (some [9]) none) = TPC.done (GoOut.ret (some [9]) none) ∧
    (runSched (fsConst 7 [9]) "f" ([], List.replicate 2 TPC.atLoad) [0, 0, 1]).1.countKey
      (filepathClean "f") = 1 ∧
    (runSched (fsConst 7 [9]) "f" ([], List.replicate 2 TPC.atLoad) [0, 0, 1]).1.load
      (filepathClean "f") = some (CacheVal.bytes [9]) := by
  have H := c9_concurrent_race_safe (fsConst 7 [9]) "f" 7 [9] [] 2 [0, 0, 1]
    rfl rfl (by decide) (by decide) (by decide)
  exact ⟨H.1 _ (by decide), H.2⟩
